import Mathlib

/-!
# Verification of the monalysa movement-segmentation and UL-use classifiers

Shallow embedding, over exact rational arithmetic, of the two stateful
algorithms of the `monalysa` repository:

* `get_move_segment_times` (src/monalysa/experimental.py): extraction of
  movement segments from a multi-component velocity signal;
* `detector_with_hystersis`, `from_vec_mag`, `from_vec_mag_dblth`,
  `estimate_accl_mag`, `from_gmac` (src/monalysa/ulfunc/uluse.py): the
  hysteresis detector and the UL-use entry points built on it.

Conventions used throughout:

* a possibly-NaN float sample is `Option ℚ`, with `none` playing the role
  of NaN: every comparison with NaN is false, exactly as in IEEE / numpy;
* a Python function that can raise (assert failure, IndexError) returns
  `Option _`, with `none` for the raising executions;
* `Python`'s `int(q)` (truncation toward zero) is `pyInt`.
-/

namespace Monalysa

/-- Comparison `x > t` on a possibly-NaN sample: false when `x` is NaN,
as in numpy. -/
def optGT (x : Option ℚ) (t : ℚ) : Bool :=
  match x with
  | none => false
  | some v => decide (t < v)

/-- Comparison `x >= t` on a possibly-NaN sample: false when `x` is NaN,
as in numpy. -/
def optGE (x : Option ℚ) (t : ℚ) : Bool :=
  match x with
  | none => false
  | some v => decide (t ≤ v)

/-- Python's `int(q)`: truncation toward zero. -/
def pyInt (q : ℚ) : ℤ :=
  if q < 0 then ⌈q⌉ else ⌊q⌋

/-! ## Hysteresis detector (uluse.py, `detector_with_hystersis`, lines 209-215)

```
y = np.zeros(len(x))
for i in range(1, len(y)):
    if y[i-1] == 0:
        y[i] = 1 * (x[i] > th)
    else:
        y[i] = 1 * (x[i] >= (th - th_band))
return y
```
-/

/-- One iteration of the loop body: from the previous decision `prev`
(`y[i-1]`) and the current sample `xi` (`x[i]`), the decision `y[i]`. -/
def detStep (th th_band : ℚ) (prev : ℚ) (xi : Option ℚ) : ℚ :=
  if prev = 0 then (if optGT xi th then 1 else 0)
  else (if optGE xi (th - th_band) then 1 else 0)

/-- The loop of `detector_with_hystersis`, scanning the samples after index
0 while carrying the previous decision. -/
def detScan (th th_band : ℚ) (prev : ℚ) : List (Option ℚ) → List ℚ
  | [] => []
  | xi :: rest =>
      detStep th th_band prev xi ::
        detScan th th_band (detStep th th_band prev xi) rest

/-- `detector_with_hystersis` (uluse.py lines 188-215): `y` starts as zeros,
`y[0]` is never written, the loop runs over indices `1 .. len-1`. -/
def detector_with_hystersis (x : List (Option ℚ)) (th th_band : ℚ) : List ℚ :=
  match x with
  | [] => []
  | _ :: rest => 0 :: detScan th th_band 0 rest

theorem optGT_some (v t : ℚ) : optGT (some v) t = decide (t < v) := rfl

theorem optGT_none (t : ℚ) : optGT none t = false := rfl

theorem optGE_some (v t : ℚ) : optGE (some v) t = decide (t ≤ v) := rfl

theorem optGE_none (t : ℚ) : optGE none t = false := rfl

theorem detector_cons (x0 : Option ℚ) (rest : List (Option ℚ)) (th tb : ℚ) :
    detector_with_hystersis (x0 :: rest) th tb = 0 :: detScan th tb 0 rest := rfl

theorem detScan_length (th tb prev : ℚ) (l : List (Option ℚ)) :
    (detScan th tb prev l).length = l.length := by
  induction l generalizing prev with
  | nil => rfl
  | cons xi rest ih => simp [detScan, ih]

theorem detector_length (x : List (Option ℚ)) (th tb : ℚ) :
    (detector_with_hystersis x th tb).length = x.length := by
  cases x with
  | nil => rfl
  | cons x0 rest => simp [detector_with_hystersis, detScan_length]

/-- Every decision emitted by the scan is 0 or 1. -/
theorem detScan_mem_zero_one (th tb prev : ℚ) (l : List (Option ℚ)) :
    ∀ v ∈ detScan th tb prev l, v = 0 ∨ v = 1 := by
  induction l generalizing prev with
  | nil => intro v hv; simp [detScan] at hv
  | cons xi rest ih =>
      intro v hv
      simp only [detScan, List.mem_cons] at hv
      rcases hv with h | h
      · subst h
        unfold detStep
        split <;> split <;> simp
      · exact ih _ v h

theorem detector_mem_zero_one (x : List (Option ℚ)) (th tb : ℚ) :
    ∀ v ∈ detector_with_hystersis x th tb, v = 0 ∨ v = 1 := by
  cases x with
  | nil => intro v hv; simp [detector_with_hystersis] at hv
  | cons x0 rest =>
      intro v hv
      simp only [detector_with_hystersis, List.mem_cons] at hv
      rcases hv with h | h
      · exact Or.inl h
      · exact detScan_mem_zero_one th tb 0 rest v h

/-- The scan, with its initial state consed on, satisfies the step
recurrence at every index. -/
theorem detScan_getD_succ (th tb : ℚ) (l : List (Option ℚ)) (prev : ℚ)
    (j : ℕ) (hj : j < l.length) :
    (prev :: detScan th tb prev l).getD (j + 1) 0 =
      detStep th tb ((prev :: detScan th tb prev l).getD j 0) (l.getD j none) := by
  induction l generalizing prev j with
  | nil => simp at hj
  | cons xi rest ih =>
      cases j with
      | zero => simp [detScan]
      | succ j' =>
          have hj' : j' < rest.length := by simpa using hj
          have := ih (detStep th tb prev xi) j' hj'
          simpa [detScan] using this

/-- Step recurrence for `detector_with_hystersis`: for `1 ≤ i < len x`,
`y[i] = detStep y[i-1] x[i]`. -/
theorem detector_getD_succ (x : List (Option ℚ)) (th tb : ℚ)
    (i : ℕ) (hi : i + 1 < x.length) :
    (detector_with_hystersis x th tb).getD (i + 1) 0 =
      detStep th tb ((detector_with_hystersis x th tb).getD i 0)
        (x.getD (i + 1) none) := by
  cases x with
  | nil => simp at hi
  | cons x0 rest =>
      have hi' : i < rest.length := by simpa using hi
      simpa [detector_with_hystersis] using
        detScan_getD_succ th tb rest 0 i hi'

/-- C4: the hysteresis state machine.  For every input (NaN samples
allowed) and thresholds, the output has the length of the input, its first
element is 0 and, at every later index, if the previous decision was 0 the
new decision is 1 iff the sample strictly exceeds `th`, and if the
previous decision was 1 the new decision is 1 iff the sample is at least
`th - th_band`. -/
theorem hysteresis_state_machine (x : List (Option ℚ)) (th th_band : ℚ)
    (hx : 0 < x.length) :
    (detector_with_hystersis x th th_band).length = x.length ∧
    (detector_with_hystersis x th th_band).getD 0 0 = 0 ∧
    ∀ i : ℕ, i + 1 < x.length →
      (((detector_with_hystersis x th th_band).getD i 0 = 0 →
        ((detector_with_hystersis x th th_band).getD (i + 1) 0 = 1 ↔
          optGT (x.getD (i + 1) none) th = true)) ∧
       ((detector_with_hystersis x th th_band).getD i 0 = 1 →
        ((detector_with_hystersis x th th_band).getD (i + 1) 0 = 1 ↔
          optGE (x.getD (i + 1) none) (th - th_band) = true))) := by
  refine ⟨detector_length x th th_band, ?_, ?_⟩
  · cases x with
    | nil => simp at hx
    | cons x0 rest => simp [detector_with_hystersis]
  · intro i hi
    have hstep := detector_getD_succ x th th_band i hi
    constructor
    · intro h0
      rw [hstep, h0]
      unfold detStep
      simp only [if_pos rfl]
      constructor
      · intro h1
        by_contra hgt
        simp only [Bool.not_eq_true] at hgt
        rw [hgt] at h1
        norm_num at h1
      · intro h1; rw [h1]; simp
    · intro h1
      rw [hstep, h1]
      unfold detStep
      simp only [one_ne_zero, if_neg]
      constructor
      · intro h2
        by_contra hge
        simp only [Bool.not_eq_true] at hge
        rw [hge] at h2
        norm_num at h2
      · intro h2; rw [h2]; simp

/-- Witness for C4 on the concrete signal `[0, 2, 6, 4, 2, 0]` with
`th = 5`, `th_band = 2` (the spec's concrete scenario). -/
theorem hysteresis_state_machine_witness :
    0 < ([some 0, some 2, some 6, some 4, some 2, some 0] : List (Option ℚ)).length ∧
    (detector_with_hystersis [some 0, some 2, some 6, some 4, some 2, some 0] 5 2).length = 6 ∧
    (detector_with_hystersis [some 0, some 2, some 6, some 4, some 2, some 0] 5 2).getD 0 0 = 0 := by
  have h := hysteresis_state_machine
    [some 0, some 2, some 6, some 4, some 2, some 0] 5 2 (by decide)
  exact ⟨by decide, h.1, h.2.1⟩

/-- A step of the detector on a NaN sample yields 0 whatever the previous
decision: both `x[i] > th` and `x[i] >= th - th_band` are false on NaN. -/
theorem detStep_none (th tb prev : ℚ) : detStep th tb prev none = 0 := by
  unfold detStep optGT optGE
  split <;> simp

/-- C10: the detector's output only ever contains 0 or 1 (never NaN), and
at every index `i ≥ 1` whose input sample is NaN the output is 0. -/
theorem detector_no_nan_and_nan_off (x : List (Option ℚ)) (th tb : ℚ) :
    (∀ v ∈ detector_with_hystersis x th tb, v = 0 ∨ v = 1) ∧
    ∀ i : ℕ, i + 1 < x.length → x.getD (i + 1) (some 0) = none →
      (detector_with_hystersis x th tb).getD (i + 1) 0 = 0 := by
  refine ⟨detector_mem_zero_one x th tb, ?_⟩
  intro i hi hnan
  have hx : x.getD (i + 1) none = none := by
    rw [List.getD_eq_getElem x (some 0) hi] at hnan
    rw [List.getD_eq_getElem x none hi, hnan]
  rw [detector_getD_succ x th tb i hi, hx, detStep_none]

/-- Witness for C10 at the concrete input `[some 0, none]`, `th = 0`,
`th_band = 0`: the NaN sample at index 1 produces decision 0. -/
theorem detector_no_nan_and_nan_off_witness :
    (0 : ℕ) + 1 < ([some 0, none] : List (Option ℚ)).length ∧
    ([some 0, none] : List (Option ℚ)).getD 1 (some 0) = none ∧
    (detector_with_hystersis [some 0, none] 0 0).getD 1 0 = 0 := by
  refine ⟨by decide, by decide, ?_⟩
  exact (detector_no_nan_and_nan_off [some 0, none] 0 0).2 0 (by decide) (by decide)

/-- getD through `List.map some`. -/
theorem getD_map_some (x : List ℚ) (j : ℕ) (hj : j < x.length) :
    (x.map some).getD j none = some (x.getD j 0) := by
  have hj' : j < (x.map some).length := by simpa using hj
  rw [List.getD_eq_getElem _ none hj', List.getD_eq_getElem x 0 hj]
  simp

/-- C7: on a monotonically non-decreasing signal starting at or below `th`
and ending strictly above it, the detector turns on exactly once, at the
first sample strictly exceeding `th`, and stays on. -/
theorem hysteresis_monotone_crossing (x : List ℚ) (th tb : ℚ)
    (hne : 0 < x.length) (htb : 0 ≤ tb)
    (hmono : ∀ j, j < x.length → ∀ i, i ≤ j → x.getD i 0 ≤ x.getD j 0)
    (h0 : x.getD 0 0 ≤ th)
    (hlast : th < x.getD (x.length - 1) 0) :
    ∃ k, 0 < k ∧ k < x.length ∧ th < x.getD k 0 ∧
      (∀ j, j < k → x.getD j 0 ≤ th) ∧
      ∀ i, i < x.length →
        (detector_with_hystersis (x.map some) th tb).getD i 0 =
          if i < k then 0 else 1 := by
  have hex : ∃ n, th < x.getD n 0 := ⟨x.length - 1, hlast⟩
  classical
  set k := Nat.find hex with hkdef
  have hPk : th < x.getD k 0 := Nat.find_spec hex
  have hmin : ∀ j, j < k → x.getD j 0 ≤ th := by
    intro j hj
    have := Nat.find_min hex hj
    exact le_of_not_lt this
  have hk0 : 0 < k := by
    rcases Nat.eq_zero_or_pos k with h | h
    · exfalso; rw [h] at hPk; exact absurd hPk (not_lt.mpr h0)
    · exact h
  have hklt : k < x.length := by
    have hle : k ≤ x.length - 1 := Nat.find_min' hex hlast
    omega
  refine ⟨k, hk0, hklt, hPk, hmin, ?_⟩
  intro i hi
  induction i with
  | zero =>
      cases hx : x with
      | nil => rw [hx] at hne; simp at hne
      | cons x0 rest =>
          simp only [List.map_cons, detector_with_hystersis, List.getD_cons_zero]
          rw [if_pos hk0]
  | succ i ih =>
      have hi' : i < x.length := Nat.lt_of_succ_lt hi
      have hyi := ih hi'
      have hmaplen : i + 1 < (x.map some).length := by simpa using hi
      have hstep := detector_getD_succ (x.map some) th tb i hmaplen
      rw [getD_map_some x (i + 1) hi] at hstep
      rcases lt_trichotomy (i + 1) k with hlt | heq | hgt
      · have hik : i < k := Nat.lt_of_succ_lt hlt
        rw [if_pos hik] at hyi
        rw [hstep, hyi]
        have hle : x.getD (i + 1) 0 ≤ th := hmin (i + 1) hlt
        have hnot : ¬ (optGT (some (x.getD (i + 1) 0)) th = true) := by
          rw [optGT_some]
          simpa using not_lt.mpr hle
        unfold detStep
        rw [if_pos rfl, if_neg hnot, if_pos hlt]
      · have hik : i < k := by omega
        rw [if_pos hik] at hyi
        rw [hstep, hyi]
        have hgtx : th < x.getD (i + 1) 0 := by rw [heq]; exact hPk
        have hcond : optGT (some (x.getD (i + 1) 0)) th = true := by
          rw [optGT_some]; simpa using hgtx
        unfold detStep
        rw [if_pos rfl, if_pos hcond, if_neg (by omega : ¬ i + 1 < k)]
      · have hik : ¬ i < k := by omega
        rw [if_neg hik] at hyi
        rw [hstep, hyi]
        have hge : x.getD k 0 ≤ x.getD (i + 1) 0 :=
          hmono (i + 1) hi k (by omega)
        have hxge : th - tb ≤ x.getD (i + 1) 0 := by
          have : th < x.getD (i + 1) 0 := lt_of_lt_of_le hPk hge
          linarith
        have hcond : optGE (some (x.getD (i + 1) 0)) (th - tb) = true := by
          rw [optGE_some]; simpa using hxge
        unfold detStep
        rw [if_neg one_ne_zero, if_pos hcond, if_neg (by omega : ¬ i + 1 < k)]

/-- Witness for C7 on the monotone signal `[0, 1, 2]`, `th = 1/2`,
`th_band = 0`. -/
theorem hysteresis_monotone_crossing_witness :
    ∃ k, 0 < k ∧ k < ([0, 1, 2] : List ℚ).length ∧
      (1 / 2 : ℚ) < ([0, 1, 2] : List ℚ).getD k 0 ∧
      (∀ j, j < k → ([0, 1, 2] : List ℚ).getD j 0 ≤ 1 / 2) ∧
      ∀ i, i < ([0, 1, 2] : List ℚ).length →
        (detector_with_hystersis (([0, 1, 2] : List ℚ).map some) (1 / 2) 0).getD i 0 =
          if i < k then 0 else 1 := by
  apply hysteresis_monotone_crossing ([0, 1, 2] : List ℚ) (1 / 2) 0
  · decide
  · norm_num
  · decide
  · norm_num [List.getD]
  · norm_num [List.getD]

theorem detScan_append (th tb prev : ℚ) (l1 l2 : List (Option ℚ)) :
    detScan th tb prev (l1 ++ l2) =
      detScan th tb prev l1 ++
        detScan th tb (l1.foldl (detStep th tb) prev) l2 := by
  induction l1 generalizing prev with
  | nil => simp [detScan]
  | cons xi rest ih => simp [detScan, ih]

theorem detStep_zero_le (th tb a : ℚ) (ha : a ≤ th) :
    detStep th tb 0 (some a) = 0 := by
  unfold detStep optGT
  simp [not_lt.mpr ha]

theorem foldl_replicate_off (th tb a : ℚ) (ha : a ≤ th) (j : ℕ) :
    (List.replicate j (some a)).foldl (detStep th tb) 0 = 0 := by
  induction j with
  | zero => rfl
  | succ j' ih => simp [List.replicate_succ, detStep_zero_le th tb a ha, ih]

theorem detScan_replicate_off (th tb a : ℚ) (ha : a ≤ th) (j : ℕ) :
    detScan th tb 0 (List.replicate j (some a)) = List.replicate j 0 := by
  induction j with
  | zero => rfl
  | succ j' ih =>
      simp [List.replicate_succ, detScan, detStep_zero_le th tb a ha, ih]

theorem detScan_replicate_on (th tb b : ℚ) (hb : th - tb ≤ b) (m : ℕ) :
    detScan th tb 1 (List.replicate m (some b)) = List.replicate m 1 := by
  have hstep : detStep th tb 1 (some b) = 1 := by
    unfold detStep optGE
    simp [hb]
  induction m with
  | zero => rfl
  | succ m' ih => simp [List.replicate_succ, detScan, hstep, ih]

theorem detScan_replicate_enter (th tb b : ℚ) (hb : th < b) (htb : 0 ≤ tb)
    (m : ℕ) : detScan th tb 0 (List.replicate m (some b)) = List.replicate m 1 := by
  cases m with
  | zero => rfl
  | succ m' =>
      have hstep : detStep th tb 0 (some b) = 1 := by
        unfold detStep optGT
        simp [hb]
      simp only [List.replicate_succ, detScan, hstep]
      rw [detScan_replicate_on th tb b (by linarith) m']

/-- C8: with a zero hysteresis band and a step input crossing `th`
(`k ≥ 1` samples at `a ≤ th`, then `m` samples at `b > th`), the detector
output coincides with the element-wise comparator `1 * (x[i] > th)`. -/
theorem degenerate_band_eq_comparator (a b th : ℚ) (k m : ℕ)
    (ha : a ≤ th) (hb : th < b) (hk : 1 ≤ k) :
    detector_with_hystersis
        (List.replicate k (some a) ++ List.replicate m (some b)) th 0 =
      (List.replicate k (some a) ++ List.replicate m (some b)).map
        (fun v => if optGT v th then (1 : ℚ) else 0) := by
  obtain ⟨k', rfl⟩ : ∃ k', k = k' + 1 := ⟨k - 1, by omega⟩
  have hGTa : optGT (some a) th = false := by
    unfold optGT; simp [not_lt.mpr ha]
  have hGTb : optGT (some b) th = true := by
    unfold optGT; simp [hb]
  have hlhs :
      detector_with_hystersis
        (List.replicate (k' + 1) (some a) ++ List.replicate m (some b)) th 0 =
        0 :: (List.replicate k' 0 ++ List.replicate m 1) := by
    rw [List.replicate_succ, List.cons_append, detector_cons]
    rw [detScan_append, detScan_replicate_off th 0 a ha k',
      foldl_replicate_off th 0 a ha k',
      detScan_replicate_enter th 0 b hb le_rfl m]
  rw [hlhs]
  simp [List.map_replicate, hGTa, hGTb, List.replicate_succ]

/-- Witness for C8 with `a = 0`, `b = 1`, `th = 1/2`, `k = m = 1`. -/
theorem degenerate_band_eq_comparator_witness :
    (0 : ℚ) ≤ 1 / 2 ∧ (1 / 2 : ℚ) < 1 ∧
    detector_with_hystersis
        (List.replicate 1 (some (0 : ℚ)) ++ List.replicate 1 (some 1)) (1 / 2) 0 =
      (List.replicate 1 (some (0 : ℚ)) ++ List.replicate 1 (some 1)).map
        (fun v => if optGT v (1 / 2) then (1 : ℚ) else 0) :=
  ⟨by norm_num, by norm_num,
    degenerate_band_eq_comparator 0 1 (1 / 2) 1 1 (by norm_num) (by norm_num)
      (by norm_num)⟩

/-! ## GMAC composition (uluse.py, `from_gmac`, lines 218-275) -/

/-- `from_gmac` (uluse.py lines 218-275), embedded from its composition
step (lines 268-275):

```
_pout = detector_with_hystersis(pitch, th=p_th, th_band=p_th_band)
_amout = detector_with_hystersis(accl_mag, th=am_th, th_band=am_th_band)
return np.array([pitch, accl_mag, _pout * _amout])
```

The upstream estimators `estimate_accl_pitch` and `estimate_accl_mag` are
scipy floating-point filter pipelines; their outputs enter here as the
given `pitch` and `accl_mag` signals, which is all the composition step
reads. -/
def from_gmac (pitch accl_mag : List (Option ℚ))
    (p_th p_th_band am_th am_th_band : ℚ) :
    List (Option ℚ) × List (Option ℚ) × List ℚ :=
  (pitch, accl_mag,
    List.zipWith (· * ·)
      (detector_with_hystersis pitch p_th p_th_band)
      (detector_with_hystersis accl_mag am_th am_th_band))

/-- C9: at every instant, the combined GMAC decision is the product of the
pitch hysteresis output and the magnitude hysteresis output, and it is 1
exactly when both are 1. -/
theorem gmac_and_composition (pitch accl_mag : List (Option ℚ))
    (p_th p_th_band am_th am_th_band : ℚ) (i : ℕ)
    (hp : i < pitch.length) (ha : i < accl_mag.length) :
    ((from_gmac pitch accl_mag p_th p_th_band am_th am_th_band).2.2.getD i 0 =
      (detector_with_hystersis pitch p_th p_th_band).getD i 0 *
        (detector_with_hystersis accl_mag am_th am_th_band).getD i 0) ∧
    ((from_gmac pitch accl_mag p_th p_th_band am_th am_th_band).2.2.getD i 0 = 1 ↔
      ((detector_with_hystersis pitch p_th p_th_band).getD i 0 = 1 ∧
       (detector_with_hystersis accl_mag am_th am_th_band).getD i 0 = 1)) := by
  set pout := detector_with_hystersis pitch p_th p_th_band with hpout
  set amout := detector_with_hystersis accl_mag am_th am_th_band with hamout
  have hip : i < pout.length := by rw [hpout, detector_length]; exact hp
  have hia : i < amout.length := by rw [hamout, detector_length]; exact ha
  have hiz : i < (List.zipWith (· * ·) pout amout).length := by
    rw [List.length_zipWith]; omega
  have hmain : (from_gmac pitch accl_mag p_th p_th_band am_th am_th_band).2.2.getD i 0 =
      pout.getD i 0 * amout.getD i 0 := by
    show (List.zipWith (· * ·) pout amout).getD i 0 = _
    rw [List.getD_eq_getElem _ 0 hiz, List.getD_eq_getElem _ 0 hip,
      List.getD_eq_getElem _ 0 hia, List.getElem_zipWith]
  refine ⟨hmain, ?_⟩
  rw [hmain]
  have hpv : pout.getD i 0 = 0 ∨ pout.getD i 0 = 1 := by
    apply detector_mem_zero_one pitch p_th p_th_band
    rw [List.getD_eq_getElem _ 0 hip]
    exact List.getElem_mem hip
  have hav : amout.getD i 0 = 0 ∨ amout.getD i 0 = 1 := by
    apply detector_mem_zero_one accl_mag am_th am_th_band
    rw [List.getD_eq_getElem _ 0 hia]
    exact List.getElem_mem hia
  rcases hpv with h1 | h1 <;> rcases hav with h2 | h2 <;>
    rw [h1, h2] <;> norm_num

/-- Witness for C9 at a concrete input: pitch `[20, 20]`, magnitude
`[1, 1]`, default-style thresholds, instant 1. -/
theorem gmac_and_composition_witness :
    (1 : ℕ) < ([some 20, some 20] : List (Option ℚ)).length ∧
    (1 : ℕ) < ([some 1, some 1] : List (Option ℚ)).length ∧
    ((from_gmac [some 20, some 20] [some 1, some 1] 10 40 (1/10) 0).2.2.getD 1 0 =
      (detector_with_hystersis [some 20, some 20] 10 40).getD 1 0 *
        (detector_with_hystersis [some 1, some 1] (1/10) 0).getD 1 0) := by
  refine ⟨by decide, by decide, ?_⟩
  exact (gmac_and_composition [some 20, some 20] [some 1, some 1] 10 40 (1/10) 0 1
    (by decide) (by decide)).1

/-! ## UL use from activity counts (uluse.py, `from_vec_mag` lines 20-45,
`from_vec_mag_dblth` lines 48-97) -/

/-- `np.nanmin`: minimum over the non-NaN entries; NaN (`none`) when every
entry is NaN (numpy warns and returns nan in that case). -/
def nanmin (l : List (Option ℚ)) : Option ℚ :=
  match l.filterMap id with
  | [] => none
  | v :: vs => some (vs.foldl min v)

/-- `from_vec_mag` (uluse.py lines 20-45); `none` is a raised
AssertionError:

```
assert len(vecmag) > 0
assert np.nanmin(vecmag) >= 0.
_use = 1.0 * (vecmag >= thresh)
_use[np.isnan(vecmag)] = np.nan
return (np.arange(len(vecmag)), _use)
```
-/
def from_vec_mag (vecmag : List (Option ℚ)) (thresh : ℚ) :
    Option (List ℕ × List (Option ℚ)) :=
  if vecmag.length = 0 then none
  else if ¬ optGE (nanmin vecmag) 0 then none
  else some (List.range vecmag.length,
    vecmag.map (fun v =>
      match v with
      | none => none
      | some q => some (if thresh ≤ q then (1 : ℚ) else 0)))

/-- The loop of `from_vec_mag_dblth` (uluse.py lines 83-95) as a left
scan.  The initialization sets 1 where `v >= thresh_h` and NaN where `v`
is NaN; the loop then walks the mid-band indices (`thresh_l <= v <
thresh_h`, in increasing order) writing 0 after a NaN predecessor and the
predecessor's value otherwise (0 at index 0; the Python read
`_uluse[-1]` at `i = 0` also produces 0 on both of its branches, which
the initial accumulator `some 0` reproduces). -/
def dblthScan (tl th : ℚ) : Option ℚ → List (Option ℚ) → List (Option ℚ)
  | _, [] => []
  | prev, v :: rest =>
      let u : Option ℚ :=
        match v with
        | none => none
        | some q =>
            if th ≤ q then some 1
            else if tl ≤ q then (match prev with | none => some 0 | some p => some p)
            else some 0
      u :: dblthScan tl th u rest

/-- `from_vec_mag_dblth` (uluse.py lines 48-97); `none` is a raised
AssertionError.  When the two thresholds coincide it delegates to
`from_vec_mag`. -/
def from_vec_mag_dblth (vecmag : List (Option ℚ)) (thresh_l thresh_h : ℚ) :
    Option (List ℕ × List (Option ℚ)) :=
  if vecmag.length = 0 then none
  else if ¬ optGE (nanmin vecmag) 0 then none
  else if ¬ (thresh_l ≤ thresh_h) then none
  else if thresh_l = thresh_h then from_vec_mag vecmag thresh_l
  else some (List.range vecmag.length, dblthScan thresh_l thresh_h (some 0) vecmag)

theorem nanmin_all_none (l : List (Option ℚ)) (h : ∀ v ∈ l, v = none) :
    nanmin l = none := by
  have : l.filterMap id = [] := by
    rw [List.filterMap_eq_nil_iff]
    intro a ha
    exact h a ha
  unfold nanmin
  rw [this]

/-- C5 (amended): on an entirely-NaN input signal, `from_vec_mag` and
`from_vec_mag_dblth` raise an AssertionError (return `none`) — the
precondition `np.nanmin(vecmag) >= 0.` evaluates to False because
`np.nanmin` of an all-NaN array is NaN — instead of returning a sentinel
all-NaN array. -/
theorem all_nan_input_raises (vecmag : List (Option ℚ)) (th tl thh : ℚ)
    (hne : vecmag ≠ []) (hnan : ∀ v ∈ vecmag, v = none) :
    from_vec_mag vecmag th = none ∧ from_vec_mag_dblth vecmag tl thh = none := by
  have hlen : ¬ vecmag.length = 0 := by
    simpa [List.length_eq_zero] using hne
  have hmin : ¬ optGE (nanmin vecmag) 0 := by
    rw [nanmin_all_none vecmag hnan, optGE_none]
    simp
  constructor
  · unfold from_vec_mag
    rw [if_neg hlen, if_pos hmin]
  · unfold from_vec_mag_dblth
    rw [if_neg hlen, if_pos hmin]

/-- Witness for the amended C5 at the concrete all-NaN input `[none]`. -/
theorem all_nan_input_raises_witness :
    ([none] : List (Option ℚ)) ≠ [] ∧
    from_vec_mag [none] 0 = none ∧ from_vec_mag_dblth [none] 0 1 = none := by
  have h := all_nan_input_raises [none] 0 0 1 (by decide) (by decide)
  exact ⟨by decide, h.1, h.2⟩

/-- C5 counterexample: at the all-NaN input `[none]` the two entry points
raise (return `none`) rather than returning a sentinel all-NaN array, so
the claimed graceful degradation fails. -/
theorem all_nan_sentinel_counterexample :
    from_vec_mag [none] 0 = none ∧ from_vec_mag_dblth [none] 0 1 = none := by
  constructor
  · unfold from_vec_mag
    rfl
  · unfold from_vec_mag_dblth
    rfl

/-! ## Segment extractor (experimental.py, `get_move_segment_times`)

The indices and durations are numpy integers, embedded as `ℤ` where the
code subtracts, and as `ℕ` for the raw sample indices.  Speeds are
compared on their squares: with `_spd = np.linalg.norm(vel, axis=1)`
every speed is non-negative, so `c * max(_spd) < _spd[i]` with `c ≥ 0` is
equivalent to `c^2 * max(_spd^2) < _spd[i]^2`, and the squared speeds are
exact rationals. -/

/-- Squared Euclidean norm of one velocity row:
`np.linalg.norm(vel, axis=1)[i] ^ 2`. -/
def sqSpeed (row : List ℚ) : ℚ := (row.map (fun v => v * v)).sum

/-- The moving mask (lines 78-81): `_movseg = _spd > 0.05 * np.max(_spd)`
with the HARDCODED constant `0.05` of line 81 (the `speedth` argument is
not used there).  In squared form the constant is `0.05^2 = 1/400`. -/
def movMask (vel : List (List ℚ)) : List Bool :=
  let sq := vel.map sqSpeed
  let m := sq.foldr max 0
  sq.map (fun s => decide ((1 / 400 : ℚ) * m < s))

/-- Modelled from the spec: classify each instant as moving iff its speed
exceeds `speed_threshold × max(speed)` over the whole signal (the
docstring of `get_move_segment_times` words the same rule for `speedth`).
Squared form: threshold `speedth^2` on the squared speeds.  Stated for
comparison with `movMask` in claim C1. -/
def movMaskSpec (speedth : ℚ) (vel : List (List ℚ)) : List Bool :=
  let sq := vel.map sqSpeed
  let m := sq.foldr max 0
  sq.map (fun s => decide (speedth ^ 2 * m < s))

/-- `_strts = np.where(np.diff(np.hstack((0, _movseg))) == 1)[0]`
(line 84): indices `i` with `mask[i] ∧ ¬mask[i-1]`, the prepended 0
standing for `mask[-1]`. -/
def risingEdges (mask : List Bool) : List ℕ :=
  (List.range mask.length).filter
    (fun i => mask.getD i false && !(if i = 0 then false else mask.getD (i - 1) false))

/-- `_stpts = np.where(np.diff(np.hstack((_movseg, 0))) == -1)[0]`
(line 85): indices `i` with `mask[i] ∧ ¬mask[i+1]`, the appended 0
standing for `mask[len]`. -/
def fallingEdges (mask : List Bool) : List ℕ :=
  (List.range mask.length).filter
    (fun i => mask.getD i false && !(mask.getD (i + 1) false))

/-- `strstpts = np.vstack((_strts, _stpts)).T` (line 86); the two columns
always have equal length (proved in `edges_length_eq`). -/
def rawSegments (mask : List Bool) : List (ℕ × ℕ) :=
  (risingEdges mask).zip (fallingEdges mask)

/-- `_remove_short_on_segments` (lines 54-57): keep the segments whose
sample duration `stop - start` strictly exceeds `int(onth / delt)`. -/
def removeShortOn (onk : ℤ) (segs : List (ℕ × ℕ)) : List (ℕ × ℕ) :=
  segs.filter (fun p => decide (onk < (p.2 : ℤ) - (p.1 : ℤ)))

/-- The loop of `_remove_short_off_segments` (lines 62-67): append the
next segment when the gap exceeds `offk`, otherwise extend the stop of
the last kept segment.  The precomputed gap
`_durs[i] = segtimes[i+1, 0] - segtimes[i, 1]` equals the gap from the
currently kept segment's stop, because an extension sets that stop to
`segtimes[i+1, 1]`. -/
def mergeOffAux (offk : ℤ) (cur : ℕ × ℕ) : List (ℕ × ℕ) → List (ℕ × ℕ)
  | [] => [cur]
  | q :: rest =>
      if offk < (q.1 : ℤ) - (cur.2 : ℤ) then cur :: mergeOffAux offk q rest
      else mergeOffAux offk (cur.1, q.2) rest

/-- `_remove_short_off_segments` (lines 59-68): `_outsegtimes =
[segtimes[0, :]]` raises an IndexError (`none`) when the segment array is
empty. -/
def removeShortOff (offk : ℤ) : List (ℕ × ℕ) → Option (List (ℕ × ℕ))
  | [] => none
  | p :: rest => some (mergeOffAux offk p rest)

/-- The vectorized off-filter of the `remove_on_before_off=False` branch
(lines 96-97): keep each later segment whose gap to its predecessor in
the ORIGINAL list strictly exceeds `offk` (the first row is kept by the
`True` prepended to the boolean mask). -/
def filterShortOff (offk : ℤ) : (ℕ × ℕ) → List (ℕ × ℕ) → List (ℕ × ℕ)
  | _, [] => []
  | prev, q :: rest =>
      (if offk < (q.1 : ℤ) - (prev.2 : ℤ) then [q] else []) ++
        filterShortOff offk q rest

/-- The boundary-adjustment loop (lines 101-112).  `prevstop` is
`0 if i == 0 else strstpts[i-1, 1]`, `nextstpt` is
`len(_movseg) - 1` for the last segment and `strstpts[i+1, 0]` otherwise,
and `_ddur = int(durtol * (_currstpt - _currstrt))`. -/
def adjustAux (durtol : ℚ) (lastIdx : ℤ) : ℤ → List (ℕ × ℕ) → List (ℤ × ℤ)
  | _, [] => []
  | prevstop, (s, e) :: rest =>
      let nextstpt : ℤ := match rest with | [] => lastIdx | q :: _ => (q.1 : ℤ)
      let ddur : ℤ := pyInt (durtol * ((e : ℚ) - (s : ℚ)))
      (max prevstop ((s : ℤ) - ddur), min ((e : ℤ) + ddur) nextstpt) ::
        adjustAux durtol lastIdx (e : ℤ) rest

/-- Lines 101-112: adjust all segments; `n` is `len(_movseg)`. -/
def adjustSegs (durtol : ℚ) (n : ℕ) (segs : List (ℕ × ℕ)) : List (ℤ × ℤ) :=
  adjustAux durtol ((n : ℤ) - 1) 0 segs

/-- `get_move_segment_times` (experimental.py lines 11-112).  `none` is a
raised exception: a failed assert (lines 70-75), the `np.linalg.norm` /
`np.max` failure on an empty `vel`, the IndexError of
`_remove_short_off_segments` on an empty segment array, or the
boolean-mask length mismatch of line 97 on an empty segment array. -/
def get_move_segment_times (vel : List (List ℚ)) (delt speedth onth offth : ℚ)
    (remove_on_before_off : Bool) (durtol : ℚ) : Option (List (ℤ × ℤ)) :=
  if ¬ (0 < delt) then none
  else if ¬ (0 < speedth ∧ speedth < 1) then none
  else if ¬ (0 ≤ onth) then none
  else if ¬ (0 ≤ offth) then none
  else if ¬ (0 < durtol ∧ durtol < 1) then none
  else if vel = [] then none
  else
    let mask := movMask vel
    let segs0 := rawSegments mask
    let onk := pyInt (onth / delt)
    let offk := pyInt (offth / delt)
    let filtered : Option (List (ℕ × ℕ)) :=
      if remove_on_before_off then
        removeShortOff offk (removeShortOn onk segs0)
      else
        match segs0 with
        | [] => none
        | p :: rest => some (removeShortOn onk (p :: filterShortOff offk p rest))
    filtered.map (adjustSegs durtol mask.length)

theorem pyInt_of_nonneg (q : ℚ) (h : 0 ≤ q) : pyInt q = ⌊q⌋ :=
  if_neg (not_lt.mpr h)

/-- C1: the moving mask ignores the `speedth` argument.  At
`vel = [[1], [1/5], [1]]` the code's mask (hardcoded threshold `0.05`)
marks the middle sample (speed `0.2`) as moving, whereas the documented
rule with `speedth = 1/2` classifies it as rest; consequently the whole
function returns the same output for `speedth = 1/2` and
`speedth = 1/10`. -/
theorem speedth_ignored_in_mask :
    movMask [[1], [1/5], [1]] = [true, true, true] ∧
    movMaskSpec (1/2) [[1], [1/5], [1]] = [true, false, true] ∧
    get_move_segment_times [[1], [1/5], [1]] 1 (1/2) 0 0 true (1/10) =
      get_move_segment_times [[1], [1/5], [1]] 1 (1/10) 0 0 true (1/10) ∧
    get_move_segment_times [[1], [1/5], [1]] 1 (1/2) 0 0 true (1/10) =
      some [(0, 2)] := by
  have hsq : ([[1], [1/5], [1]] : List (List ℚ)).map sqSpeed = [1, 1/25, 1] := by
    simp [sqSpeed]
    norm_num
  have hmax : ([1, 1/25, 1] : List ℚ).foldr max 0 = 1 := by
    norm_num [max_def]
  have hmask : movMask [[1], [1/5], [1]] = [true, true, true] := by
    simp only [movMask, hsq, hmax]
    norm_num
  have hmaskspec : movMaskSpec (1/2) [[1], [1/5], [1]] = [true, false, true] := by
    simp only [movMaskSpec, hsq, hmax]
    norm_num
  have hraw : rawSegments [true, true, true] = [(0, 2)] := by decide
  have honk : pyInt ((0 : ℚ) / 1) = 0 := by
    rw [pyInt_of_nonneg _ (by norm_num)]
    norm_num
  have hfil : removeShortOn 0 [(0, 2)] = [(0, 2)] := by decide
  have hddur : pyInt ((1 : ℚ) / 10 * (((2 : ℕ) : ℚ) - ((0 : ℕ) : ℚ))) = 0 := by
    rw [pyInt_of_nonneg _ (by norm_num)]
    norm_num
  have hadj : adjustSegs (1/10) 3 [(0, 2)] = [(0, 2)] := by
    simp only [adjustSegs, adjustAux, hddur]
    norm_num
  have heval : ∀ sth : ℚ, 0 < sth → sth < 1 →
      get_move_segment_times [[1], [1/5], [1]] 1 sth 0 0 true (1/10) =
        some [(0, 2)] := by
    intro sth h1 h2
    rw [get_move_segment_times]
    rw [if_neg (by norm_num), if_neg (by simp [h1, h2]), if_neg (by norm_num),
      if_neg (by norm_num), if_neg (by norm_num), if_neg (by simp)]
    simp only [hmask, hraw, honk, hfil, removeShortOff,
      List.length_cons, List.length_nil]
    rw [if_pos trivial]
    simp only [Option.map_some', mergeOffAux]
    rw [hadj]
  refine ⟨hmask, hmaskspec, ?_, heval (1/2) (by norm_num) (by norm_num)⟩
  rw [heval (1/2) (by norm_num) (by norm_num), heval (1/10) (by norm_num) (by norm_num)]

/-- C3: on an all-zero velocity signal no sample is classified as moving,
and `get_move_segment_times` raises (returns `none`) for both values of
`remove_on_before_off` instead of returning an empty segment list. -/
theorem zero_movement_raises :
    movMask [[0, 0], [0, 0], [0, 0]] = [false, false, false] ∧
    get_move_segment_times [[0, 0], [0, 0], [0, 0]] 1 (1/2) (1/10) (1/10)
      true (1/10) = none ∧
    get_move_segment_times [[0, 0], [0, 0], [0, 0]] 1 (1/2) (1/10) (1/10)
      false (1/10) = none := by
  have hsq : ([[0, 0], [0, 0], [0, 0]] : List (List ℚ)).map sqSpeed = [0, 0, 0] := by
    simp [sqSpeed]
  have hmax : ([0, 0, 0] : List ℚ).foldr max 0 = 0 := by
    norm_num [max_def]
  have hmask : movMask [[0, 0], [0, 0], [0, 0]] = [false, false, false] := by
    simp only [movMask, hsq, hmax]
    norm_num
  have hraw : rawSegments [false, false, false] = [] := by decide
  refine ⟨hmask, ?_, ?_⟩ <;>
  · rw [get_move_segment_times]
    rw [if_neg (by norm_num), if_neg (by norm_num), if_neg (by norm_num),
      if_neg (by norm_num), if_neg (by norm_num), if_neg (by simp)]
    simp only [hmask, hraw]
    rfl

/-- The velocity signal of the C2 counterexample: speed 1 on samples
0-4 and 7-10, rest on samples 5-6. -/
def vel11 : List (List ℚ) :=
  [[1], [1], [1], [1], [1], [0], [0], [1], [1], [1], [1]]

/-- Shared evaluation for C2: with `delt = 1`, `onth = offth = 0`,
`durtol = 9/10`, the surviving raw segments of `vel11` are `(0,4)` and
`(7,10)`; adjustment clamps only against the neighbours' ORIGINAL
boundaries, so the returned segments are `(0,7)` and `(5,10)`. -/
theorem vel11_eval :
    get_move_segment_times vel11 1 (1/2) 0 0 true (9/10) =
      some [(0, 7), (5, 10)] := by
  have hsq : vel11.map sqSpeed = [1, 1, 1, 1, 1, 0, 0, 1, 1, 1, 1] := by
    simp [vel11, sqSpeed]
  have hmax : ([1, 1, 1, 1, 1, 0, 0, 1, 1, 1, 1] : List ℚ).foldr max 0 = 1 := by
    norm_num [max_def]
  have hmask : movMask vel11 =
      [true, true, true, true, true, false, false, true, true, true, true] := by
    simp only [movMask, hsq, hmax]
    norm_num
  have hraw : rawSegments
      [true, true, true, true, true, false, false, true, true, true, true] =
      [(0, 4), (7, 10)] := by decide
  have honk : pyInt ((0 : ℚ) / 1) = 0 := by
    rw [pyInt_of_nonneg _ (by norm_num)]
    norm_num
  have hfil : removeShortOn 0 [(0, 4), (7, 10)] = [(0, 4), (7, 10)] := by decide
  have hmerge : mergeOffAux 0 (0, 4) [(7, 10)] = [(0, 4), (7, 10)] := by decide
  have hd1 : pyInt ((9 : ℚ) / 10 * (((4 : ℕ) : ℚ) - ((0 : ℕ) : ℚ))) = 3 := by
    rw [pyInt_of_nonneg _ (by norm_num)]
    norm_num
  have hd2 : pyInt ((9 : ℚ) / 10 * (((10 : ℕ) : ℚ) - ((7 : ℕ) : ℚ))) = 2 := by
    rw [pyInt_of_nonneg _ (by norm_num)]
    norm_num
  have hadj : adjustSegs (9/10) 11 [(0, 4), (7, 10)] = [(0, 7), (5, 10)] := by
    simp only [adjustSegs, adjustAux, hd1, hd2]
    norm_num
  rw [get_move_segment_times]
  rw [if_neg (by norm_num), if_neg (by norm_num), if_neg (by norm_num),
    if_neg (by norm_num), if_neg (by norm_num), if_neg (by simp [vel11])]
  simp only [hmask, hraw, honk, hfil, removeShortOff,
    List.length_cons, List.length_nil]
  rw [if_pos trivial]
  simp only [Option.map_some']
  rw [hmerge, hadj]

/-- C2 counterexample: `get_move_segment_times` returns normally on
`vel11`, yet the two returned segments `(0,7)` and `(5,10)` overlap on
samples 5-7, refuting pairwise non-overlap. -/
theorem adjusted_segments_overlap :
    get_move_segment_times vel11 1 (1/2) 0 0 true (9/10) =
      some [(0, 7), (5, 10)] ∧
    ¬ (([((0 : ℤ), (7 : ℤ)), (5, 10)]).Pairwise (fun p q => p.2 < q.1)) := by
  refine ⟨vel11_eval, ?_⟩
  intro h
  have := List.rel_of_pairwise_cons h (List.mem_singleton.mpr rfl)
  norm_num at this

/-! ## Precondition behaviour of `estimate_accl_mag` (uluse.py lines 138-185) -/

/-- Outcome of a call to `estimate_accl_mag`: a failed assert
(AssertionError, raised before any computation), an IndexError raised
during the computation phase, or normal entry into the numeric
filtering. -/
inductive MagOutcome
  | assertError
  | indexError
  | ok
  deriving DecidableEq

/-- Control flow of `estimate_accl_mag` (uluse.py lines 138-185): the
default `n_am = 5*fs` (line 166), the asserts of lines 168-173 in order
(`len(accl.shape) == 2`, always true for a `rows × cols` array;
`accl.shape[1] <= 3`; `fs > 0`; `fc > 0`; `nc > 0`; `n_am > 0`), then the
computation phase, whose column accesses `accl[:, 1]` and `accl[:, 2]`
(lines 177-179) raise an IndexError when `cols < 3`.  The scipy filter
numerics, irrelevant to which inputs raise, are not modelled. -/
def estimate_accl_mag (rows cols : ℕ) (fs fc : ℚ) (nc : ℤ)
    (n_am : Option ℚ) : MagOutcome :=
  let nam := n_am.getD (5 * fs)
  if ¬ (cols ≤ 3) then .assertError
  else if ¬ (0 < fs) then .assertError
  else if ¬ (0 < fc) then .assertError
  else if ¬ (0 < nc) then .assertError
  else if ¬ (0 < nam) then .assertError
  else if cols < 3 then .indexError
  else .ok

/-- C6: a 2-column acceleration array passes every precondition assert of
`estimate_accl_mag` and fails only later, with an IndexError during the
computation phase — not with the claimed eager precondition error.  The
eager assert does fire for more than 3 columns and for non-positive
`fs`, `fc`, `nc`, `n_am`; a 3-column input reaches the computation. -/
theorem accl_mag_two_columns_not_eager :
    estimate_accl_mag 1 2 1 (1/10) 2 none = .indexError ∧
    estimate_accl_mag 1 2 1 (1/10) 2 none ≠ .assertError ∧
    estimate_accl_mag 1 4 1 (1/10) 2 none = .assertError ∧
    estimate_accl_mag 1 3 (-1) (1/10) 2 none = .assertError ∧
    estimate_accl_mag 1 3 1 (-1/10) 2 none = .assertError ∧
    estimate_accl_mag 1 3 1 (1/10) (-2) none = .assertError ∧
    estimate_accl_mag 1 3 1 (1/10) 2 (some (-5)) = .assertError ∧
    estimate_accl_mag 1 3 1 (1/10) 2 none = .ok := by
  have h2col : estimate_accl_mag 1 2 1 (1/10) 2 none = .indexError := by
    simp only [estimate_accl_mag, Option.getD]
    norm_num
  have hne : estimate_accl_mag 1 2 1 (1/10) 2 none ≠ .assertError := by
    rw [h2col]
    intro hcon
    cases hcon
  refine ⟨h2col, hne, ?_, ?_, ?_, ?_, ?_, ?_⟩ <;>
    simp only [estimate_accl_mag, Option.getD] <;> norm_num

/-! ## Edge detection: scan forms and well-formedness of the raw segments -/

/-- Left-scan form of `risingEdges`, carrying the previous mask value. -/
def edgesUpAux : ℕ → Bool → List Bool → List ℕ
  | _, _, [] => []
  | i, prev, b :: r => (if b && !prev then [i] else []) ++ edgesUpAux (i + 1) b r

/-- Left-scan form of `fallingEdges`, carrying the previous mask value;
a run still open at the end of the mask closes at the last index. -/
def edgesDownAux : ℕ → Bool → List Bool → List ℕ
  | i, prev, [] => if prev then [i - 1] else []
  | i, prev, b :: r =>
      (if prev && !b then [i - 1] else []) ++ edgesDownAux (i + 1) b r

theorem edgesUpAux_eq (m : List Bool) : ∀ (prev : Bool) (i0 : ℕ),
    edgesUpAux i0 prev m =
      ((List.range m.length).filter
        (fun j => m.getD j false &&
          !(if j = 0 then prev else m.getD (j - 1) false))).map (· + i0) := by
  induction m with
  | nil => intro prev i0; simp [edgesUpAux]
  | cons b r ih =>
      intro prev i0
      have hpred : ∀ j : ℕ,
          ((b :: r).getD (j + 1) false &&
            !(if j + 1 = 0 then prev else (b :: r).getD (j + 1 - 1) false)) =
          (r.getD j false && !(if j = 0 then b else r.getD (j - 1) false)) := by
        intro j
        cases j with
        | zero => simp
        | succ j' => simp
      have hmm : ∀ X : List ℕ,
          (X.map Nat.succ).map (· + i0) = X.map (· + (i0 + 1)) := by
        intro X
        rw [List.map_map]
        apply List.map_congr_left
        intro a _
        simp only [Function.comp_apply, Nat.succ_eq_add_one]
        omega
      rw [show edgesUpAux i0 prev (b :: r) =
        (if b && !prev then [i0] else []) ++ edgesUpAux (i0 + 1) b r from rfl]
      rw [ih b (i0 + 1)]
      rw [List.length_cons, List.range_succ_eq_map, List.filter_cons]
      simp only [List.getD_cons_zero, List.filter_map]
      simp only [Function.comp_def, hpred]
      cases hb : (b && !prev) with
      | true => simp [hb, hmm]
      | false => simp [hb, hmm]

theorem edgesDownAux_eq (m : List Bool) : ∀ (prev : Bool) (i0 : ℕ),
    edgesDownAux i0 prev m =
      (if prev && !(m.headD false) then [i0 - 1] else []) ++
        ((List.range m.length).filter
          (fun j => m.getD j false && !(m.getD (j + 1) false))).map (· + i0) := by
  induction m with
  | nil =>
      intro prev i0
      cases prev <;> simp [edgesDownAux]
  | cons b r ih =>
      intro prev i0
      have hpred : ∀ j : ℕ,
          ((b :: r).getD (j + 1) false && !((b :: r).getD (j + 1 + 1) false)) =
          (r.getD j false && !(r.getD (j + 1) false)) := by
        intro j; simp
      have hmm : ∀ X : List ℕ,
          (X.map Nat.succ).map (· + i0) = X.map (· + (i0 + 1)) := by
        intro X
        rw [List.map_map]
        apply List.map_congr_left
        intro a _
        simp only [Function.comp_apply, Nat.succ_eq_add_one]
        omega
      have hhead : ∀ d : Bool, (b :: r).getD (0 + 1) d = r.headD d := by
        intro d; cases r <;> simp
      rw [show edgesDownAux i0 prev (b :: r) =
        (if prev && !b then [i0 - 1] else []) ++ edgesDownAux (i0 + 1) b r from rfl]
      rw [ih b (i0 + 1)]
      rw [List.length_cons, List.range_succ_eq_map, List.filter_cons]
      simp only [List.getD_cons_zero, List.filter_map]
      simp only [Function.comp_def, hpred, hhead]
      cases hb : (b && !(r.headD false)) with
      | true => simp [hb, hmm]
      | false => simp [hb, hmm]

theorem risingEdges_eq_scan (mask : List Bool) :
    risingEdges mask = edgesUpAux 0 false mask := by
  rw [risingEdges, edgesUpAux_eq]
  have : ∀ X : List ℕ, X.map (· + 0) = X := by
    intro X
    apply List.map_id''
    intro a
    omega
  rw [this]

theorem fallingEdges_eq_scan (mask : List Bool) :
    fallingEdges mask = edgesDownAux 0 false mask := by
  rw [fallingEdges, edgesDownAux_eq]
  have : ∀ X : List ℕ, X.map (· + 0) = X := by
    intro X
    apply List.map_id''
    intro a
    omega
  rw [this]
  simp

/-- Well-formedness of a list of raw (inclusive, sample-index) segments:
every segment starts at or after `lo`, starts no later than it stops,
stops before `n`, and the segments are strictly separated in order. -/
def SegsWF (lo n : ℕ) (l : List (ℕ × ℕ)) : Prop :=
  (∀ p ∈ l, lo ≤ p.1 ∧ p.1 ≤ p.2 ∧ p.2 < n) ∧
    l.Pairwise (fun p q => p.2 < q.1)

theorem SegsWF.mono_lo {lo lo' n : ℕ} {l : List (ℕ × ℕ)}
    (h : SegsWF lo n l) (hle : lo' ≤ lo) : SegsWF lo' n l := by
  obtain ⟨h1, h2⟩ := h
  refine ⟨?_, h2⟩
  intro p hp
  have := h1 p hp
  omega

/-- Joint invariant of the two edge scans.  In the `false` state (no run
open) the zipped `(start, stop)` pairs are well formed; in the `true`
state (a run open since before `j`) the falling-edge list starts with the
end of the current run, and the remaining pairs are well formed beyond
it. -/
theorem edges_zip_wf (m : List Bool) :
    (∀ i : ℕ,
      SegsWF i (i + m.length)
        ((edgesUpAux i false m).zip (edgesDownAux i false m)) ∧
      (edgesUpAux i false m).length = (edgesDownAux i false m).length) ∧
    (∀ j : ℕ, 1 ≤ j →
      ∃ e0 ds, edgesDownAux j true m = e0 :: ds ∧
        j - 1 ≤ e0 ∧ e0 < j + m.length ∧
        SegsWF (e0 + 2) (j + m.length) ((edgesUpAux j true m).zip ds) ∧
        (edgesUpAux j true m).length = ds.length) := by
  induction m with
  | nil =>
      constructor
      · intro i
        simp [edgesUpAux, edgesDownAux, SegsWF]
      · intro j hj
        refine ⟨j - 1, [], rfl, le_rfl, by omega, ?_, ?_⟩
        · simp [edgesUpAux, SegsWF]
        · simp [edgesUpAux]
  | cons b r ih =>
      obtain ⟨ihF, ihT⟩ := ih
      constructor
      · intro i
        cases b with
        | false =>
            have h := ihF (i + 1)
            have hup : edgesUpAux i false (false :: r) =
                edgesUpAux (i + 1) false r := by
              simp [edgesUpAux]
            have hdn : edgesDownAux i false (false :: r) =
                edgesDownAux (i + 1) false r := by
              simp [edgesDownAux]
            rw [hup, hdn]
            have hlen : (i + 1) + r.length = i + (false :: r).length := by
              simp
              omega
            rw [hlen] at h
            exact ⟨(h.1).mono_lo (by omega), h.2⟩
        | true =>
            have h := ihT (i + 1) (by omega)
            obtain ⟨e0, ds, hds, he0lb, he0ub, hwf, hlen⟩ := h
            have hup : edgesUpAux i false (true :: r) =
                i :: edgesUpAux (i + 1) true r := by
              simp [edgesUpAux]
            have hdn : edgesDownAux i false (true :: r) =
                edgesDownAux (i + 1) true r := by
              simp [edgesDownAux]
            rw [hup, hdn, hds, List.zip_cons_cons]
            constructor
            · constructor
              · intro p hp
                rcases List.mem_cons.mp hp with h1 | h1
                · subst h1
                  refine ⟨le_rfl, by omega, by simp; omega⟩
                · have := hwf.1 p h1
                  simp at this ⊢
                  omega
              · rw [List.pairwise_cons]
                constructor
                · intro q hq
                  have := hwf.1 q hq
                  simp only
                  omega
                · exact hwf.2
            · simp only [List.length_cons]
              omega
      · intro j hj
        cases b with
        | true =>
            have h := ihT (j + 1) (by omega)
            obtain ⟨e0, ds, hds, he0lb, he0ub, hwf, hlen⟩ := h
            have hup : edgesUpAux j true (true :: r) =
                edgesUpAux (j + 1) true r := by
              simp [edgesUpAux]
            have hdn : edgesDownAux j true (true :: r) =
                edgesDownAux (j + 1) true r := by
              simp [edgesDownAux]
            refine ⟨e0, ds, by rw [hdn]; exact hds, by omega,
              by simp at he0ub ⊢; omega, ?_, ?_⟩
            · rw [hup]
              have hN : (j + 1) + r.length = j + (true :: r).length := by
                simp
                omega
              rw [hN] at hwf
              exact hwf
            · rw [hup]
              exact hlen
        | false =>
            have h := ihF (j + 1)
            have hup : edgesUpAux j true (false :: r) =
                edgesUpAux (j + 1) false r := by
              simp [edgesUpAux]
            have hdn : edgesDownAux j true (false :: r) =
                (j - 1) :: edgesDownAux (j + 1) false r := by
              simp [edgesDownAux]
            refine ⟨j - 1, edgesDownAux (j + 1) false r, hdn, le_rfl,
              by simp; omega, ?_, ?_⟩
            · rw [hup]
              have hN : (j + 1) + r.length = j + (false :: r).length := by
                simp
                omega
              have hlo : j - 1 + 2 = j + 1 := by omega
              rw [hlo]
              have := h.1
              rw [hN] at this
              exact this
            · rw [hup]
              exact h.2

theorem movMask_length (vel : List (List ℚ)) :
    (movMask vel).length = vel.length := by
  simp [movMask]

/-- The raw zipped segments of any mask are well formed. -/
theorem rawSegments_wf (mask : List Bool) :
    SegsWF 0 mask.length (rawSegments mask) := by
  have h := ((edges_zip_wf mask).1 0).1
  rw [rawSegments, risingEdges_eq_scan, fallingEdges_eq_scan]
  simpa using h

theorem SegsWF.sublist {lo n : ℕ} {l l' : List (ℕ × ℕ)}
    (h : SegsWF lo n l) (hs : List.Sublist l' l) : SegsWF lo n l' :=
  ⟨fun p hp => h.1 p (hs.subset hp), h.2.sublist hs⟩

theorem removeShortOn_wf {lo n : ℕ} (onk : ℤ) {l : List (ℕ × ℕ)}
    (h : SegsWF lo n l) : SegsWF lo n (removeShortOn onk l) :=
  h.sublist (List.filter_sublist l)

theorem filterShortOff_sublist (offk : ℤ) :
    ∀ (l : List (ℕ × ℕ)) (prev : ℕ × ℕ), List.Sublist (filterShortOff offk prev l) l := by
  intro l
  induction l with
  | nil => intro prev; simp [filterShortOff]
  | cons q rest ih =>
      intro prev
      rw [show filterShortOff offk prev (q :: rest) =
        (if offk < (q.1 : ℤ) - (prev.2 : ℤ) then [q] else []) ++
          filterShortOff offk q rest from rfl]
      by_cases hc : offk < (q.1 : ℤ) - (prev.2 : ℤ)
      · rw [if_pos hc]
        exact (ih q).cons₂ q
      · rw [if_neg hc]
        exact (ih q).cons q

/-- Every start index in the output of the merge fold is the start of
some input segment. -/
theorem mergeOffAux_start_mem (offk : ℤ) :
    ∀ (rest : List (ℕ × ℕ)) (cur p' : ℕ × ℕ),
      p' ∈ mergeOffAux offk cur rest → ∃ a ∈ cur :: rest, p'.1 = a.1 := by
  intro rest
  induction rest with
  | nil =>
      intro cur p' hp
      simp [mergeOffAux] at hp
      exact ⟨cur, by simp, by rw [hp]⟩
  | cons q rest' ih =>
      intro cur p' hp
      rw [show mergeOffAux offk cur (q :: rest') =
        (if offk < (q.1 : ℤ) - (cur.2 : ℤ) then cur :: mergeOffAux offk q rest'
          else mergeOffAux offk (cur.1, q.2) rest') from rfl] at hp
      by_cases hc : offk < (q.1 : ℤ) - (cur.2 : ℤ)
      · rw [if_pos hc] at hp
        rcases List.mem_cons.mp hp with h1 | h1
        · exact ⟨cur, by simp, by rw [h1]⟩
        · obtain ⟨a, ha, hpa⟩ := ih q p' h1
          rcases List.mem_cons.mp ha with h2 | h2
          · exact ⟨q, by simp, by rw [hpa, h2]⟩
          · exact ⟨a, by simp [h2], hpa⟩
      · rw [if_neg hc] at hp
        obtain ⟨a, ha, hpa⟩ := ih (cur.1, q.2) p' hp
        rcases List.mem_cons.mp ha with h2 | h2
        · exact ⟨cur, by simp, by rw [hpa, h2]⟩
        · exact ⟨a, by simp [h2], hpa⟩

/-- The merge fold preserves segment well-formedness. -/
theorem mergeOffAux_wf (offk : ℤ) (lo n : ℕ) :
    ∀ (rest : List (ℕ × ℕ)) (cur : ℕ × ℕ),
      (∀ p ∈ cur :: rest, lo ≤ p.1 ∧ p.1 ≤ p.2 ∧ p.2 < n) →
      ((cur :: rest).Pairwise fun p q => p.2 < q.1) →
      SegsWF lo n (mergeOffAux offk cur rest) := by
  intro rest
  induction rest with
  | nil =>
      intro cur hmem hpw
      constructor
      · intro p hp
        simp [mergeOffAux] at hp
        subst hp
        exact hmem p (by simp)
      · simp [mergeOffAux]
  | cons q rest' ih =>
      intro cur hmem hpw
      rw [List.pairwise_cons] at hpw
      obtain ⟨hcur_lt, hpw'⟩ := hpw
      rw [show mergeOffAux offk cur (q :: rest') =
        (if offk < (q.1 : ℤ) - (cur.2 : ℤ) then cur :: mergeOffAux offk q rest'
          else mergeOffAux offk (cur.1, q.2) rest') from rfl]
      by_cases hc : offk < (q.1 : ℤ) - (cur.2 : ℤ)
      · rw [if_pos hc]
        have hwf' := ih q (fun p hp => hmem p (List.mem_cons_of_mem cur hp)) hpw'
        constructor
        · intro p hp
          rcases List.mem_cons.mp hp with h1 | h1
          · subst h1
            exact hmem p (by simp)
          · exact hwf'.1 p h1
        · rw [List.pairwise_cons]
          refine ⟨?_, hwf'.2⟩
          intro p' hp'
          obtain ⟨a, ha, hpa⟩ := mergeOffAux_start_mem offk rest' q p' hp'
          rw [hpa]
          exact hcur_lt a ha
      · rw [if_neg hc]
        rw [List.pairwise_cons] at hpw'
        obtain ⟨hq_lt, hrest'⟩ := hpw'
        apply ih (cur.1, q.2)
        · intro p hp
          rcases List.mem_cons.mp hp with h1 | h1
          · subst h1
            have hcurm := hmem cur (by simp)
            have hqm := hmem q (by simp)
            have hlt := hcur_lt q (by simp)
            exact ⟨hcurm.1, by omega, hqm.2.2⟩
          · exact hmem p (List.mem_cons_of_mem cur (List.mem_cons_of_mem q h1))
        · rw [List.pairwise_cons]
          exact ⟨hq_lt, hrest'⟩

theorem adjustAux_ddur_nonneg (durtol : ℚ) (hdt : 0 < durtol) (s e : ℕ)
    (hse : s ≤ e) : 0 ≤ pyInt (durtol * ((e : ℚ) - (s : ℚ))) := by
  have h0 : (0 : ℚ) ≤ durtol * ((e : ℚ) - (s : ℚ)) :=
    mul_nonneg hdt.le (sub_nonneg.mpr (by exact_mod_cast hse))
  rw [pyInt_of_nonneg _ h0]
  exact Int.floor_nonneg.mpr h0

/-- Every start produced by the adjustment loop is at least the incoming
`prevstop`. -/
theorem adjustAux_start_lb (durtol : ℚ) (lastIdx : ℤ) :
    ∀ (l : List (ℕ × ℕ)) (prevstop : ℤ),
      (∀ p ∈ l, prevstop ≤ (p.1 : ℤ) ∧ p.1 ≤ p.2) →
      (l.Pairwise fun p q => p.2 < q.1) →
      ∀ q ∈ adjustAux durtol lastIdx prevstop l, prevstop ≤ q.1 := by
  intro l
  induction l with
  | nil =>
      intro prevstop _ _ q hq
      simp [adjustAux] at hq
  | cons p0 rest ih =>
      intro prevstop hmem hpw q hq
      obtain ⟨s, e⟩ := p0
      rw [List.pairwise_cons] at hpw
      obtain ⟨he_lt, hpw'⟩ := hpw
      have hhead := hmem (s, e) (by simp)
      have hkey : ∀ nextstpt : ℤ,
          q ∈ (max prevstop ((s : ℤ) - pyInt (durtol * ((e : ℚ) - (s : ℚ)))),
            min ((e : ℤ) + pyInt (durtol * ((e : ℚ) - (s : ℚ)))) nextstpt) ::
            adjustAux durtol lastIdx (e : ℤ) rest → prevstop ≤ q.1 := by
        intro nextstpt hq'
        rcases List.mem_cons.mp hq' with h1 | h1
        · rw [h1]
          exact le_max_left _ _
        · have hrec := ih (e : ℤ)
            (fun p hp => ⟨by have := he_lt p hp; omega,
              (hmem p (List.mem_cons_of_mem _ hp)).2⟩)
            hpw' q h1
          have : prevstop ≤ (e : ℤ) := by
            have h2 := hhead.1
            have h3 := hhead.2
            omega
          omega
      cases rest with
      | nil => exact hkey lastIdx hq
      | cons q2 rest2 => exact hkey (q2.1 : ℤ) hq

/-- The adjustment loop yields segments with non-negative starts, start ≤
stop, stops at most `n - 1`, and non-decreasing starts. -/
theorem adjustAux_wf (durtol : ℚ) (hdt : 0 < durtol) (n : ℕ) :
    ∀ (l : List (ℕ × ℕ)) (prevstop : ℤ), 0 ≤ prevstop →
      (∀ p ∈ l, prevstop ≤ (p.1 : ℤ) ∧ p.1 ≤ p.2 ∧ p.2 < n) →
      (l.Pairwise fun p q => p.2 < q.1) →
      (∀ q ∈ adjustAux durtol ((n : ℤ) - 1) prevstop l,
        0 ≤ q.1 ∧ q.1 ≤ q.2 ∧ q.2 ≤ (n : ℤ) - 1) ∧
      ((adjustAux durtol ((n : ℤ) - 1) prevstop l).Pairwise
        fun q q' => q.1 ≤ q'.1) := by
  intro l
  induction l with
  | nil =>
      intro prevstop _ _ _
      constructor
      · intro q hq
        simp [adjustAux] at hq
      · simp [adjustAux]
  | cons p0 rest ih =>
      intro prevstop hps hmem hpw
      obtain ⟨s, e⟩ := p0
      have hhead := hmem (s, e) (by simp)
      rw [List.pairwise_cons] at hpw
      obtain ⟨he_lt, hpw'⟩ := hpw
      have hd0 : 0 ≤ pyInt (durtol * ((e : ℚ) - (s : ℚ))) :=
        adjustAux_ddur_nonneg durtol hdt s e hhead.2.1
      have hmem' : ∀ p ∈ rest, (e : ℤ) ≤ (p.1 : ℤ) ∧ p.1 ≤ p.2 ∧ p.2 < n := by
        intro p hp
        have h1 := he_lt p hp
        have h2 := hmem p (List.mem_cons_of_mem _ hp)
        exact ⟨by omega, h2.2⟩
      have htail := ih (e : ℤ) (by omega) hmem' hpw'
      have hstart_lb := adjustAux_start_lb durtol ((n : ℤ) - 1) rest (e : ℤ)
        (fun p hp => ⟨(hmem' p hp).1, (hmem' p hp).2.1⟩) hpw'
      have hkey : ∀ nextstpt : ℤ, (e : ℤ) ≤ nextstpt → nextstpt ≤ (n : ℤ) - 1 →
          (∀ q ∈ (max prevstop ((s : ℤ) - pyInt (durtol * ((e : ℚ) - (s : ℚ)))),
              min ((e : ℤ) + pyInt (durtol * ((e : ℚ) - (s : ℚ)))) nextstpt) ::
              adjustAux durtol ((n : ℤ) - 1) (e : ℤ) rest,
            0 ≤ q.1 ∧ q.1 ≤ q.2 ∧ q.2 ≤ (n : ℤ) - 1) ∧
          (((max prevstop ((s : ℤ) - pyInt (durtol * ((e : ℚ) - (s : ℚ)))),
              min ((e : ℤ) + pyInt (durtol * ((e : ℚ) - (s : ℚ)))) nextstpt) ::
              adjustAux durtol ((n : ℤ) - 1) (e : ℤ) rest).Pairwise
            fun q q' => q.1 ≤ q'.1) := by
        intro nextstpt hn1 hn2
        have hp1 := hhead.1
        have hp2 := hhead.2.1
        constructor
        · intro q hq
          rcases List.mem_cons.mp hq with h1 | h1
          · rw [h1]
            refine ⟨by simp; omega, by simp; omega, by simp; omega⟩
          · exact htail.1 q h1
        · rw [List.pairwise_cons]
          refine ⟨?_, htail.2⟩
          intro q' hq'
          have h1 := hstart_lb q' hq'
          simp only
          omega
      cases rest with
      | nil =>
          have := hhead.2.2
          exact hkey ((n : ℤ) - 1) (by omega) le_rfl
      | cons q2 rest2 =>
          have h1 := he_lt q2 (by simp)
          have h2 := hmem q2 (by simp)
          exact hkey (q2.1 : ℤ) (by omega) (by omega)

/-- Lines 101-112 as a whole: adjusting a well-formed segment list yields
segments with non-negative starts, start ≤ stop, stops at most `n - 1`,
and non-decreasing starts. -/
theorem adjustSegs_wf (durtol : ℚ) (hdt : 0 < durtol) (n : ℕ)
    (l : List (ℕ × ℕ)) (hwf : SegsWF 0 n l) :
    (∀ q ∈ adjustSegs durtol n l, 0 ≤ q.1 ∧ q.1 ≤ q.2 ∧ q.2 ≤ (n : ℤ) - 1) ∧
    ((adjustSegs durtol n l).Pairwise fun q q' => q.1 ≤ q'.1) := by
  apply adjustAux_wf durtol hdt n l 0 le_rfl
  · intro p hp
    have := hwf.1 p hp
    exact ⟨by omega, this.2.1, this.2.2⟩
  · exact hwf.2

/-- C2 (amended): whenever `get_move_segment_times` returns normally,
every returned segment has `0 ≤ start ≤ stop ≤ N - 1` (`N` the number of
velocity samples) and the segments are ordered by start (non-decreasing);
consecutive adjusted segments may however overlap, because the
adjustment clamps only against the neighbours' pre-adjustment
boundaries. -/
theorem segments_wellformed (vel : List (List ℚ))
    (delt speedth onth offth durtol : ℚ) (flag : Bool) (segs : List (ℤ × ℤ))
    (h : get_move_segment_times vel delt speedth onth offth flag durtol =
      some segs) :
    (∀ q ∈ segs, 0 ≤ q.1 ∧ q.1 ≤ q.2 ∧ q.2 ≤ (vel.length : ℤ) - 1) ∧
    segs.Pairwise (fun q q' => q.1 ≤ q'.1) := by
  rw [← movMask_length vel]
  simp only [get_move_segment_times] at h
  split_ifs at h with hg1 hg2 hg3 hg4 hg5 hg6 hflag
  · -- remove_on_before_off = true
    have hdt : 0 < durtol := hg5.1
    cases hrs : removeShortOn (pyInt (onth / delt)) (rawSegments (movMask vel)) with
    | nil =>
        rw [hrs] at h
        exact Option.noConfusion h
    | cons c t =>
        rw [hrs] at h
        rw [show removeShortOff (pyInt (offth / delt)) (c :: t) =
          some (mergeOffAux (pyInt (offth / delt)) c t) from rfl,
          Option.map_some'] at h
        have hsegs := (Option.some_injective _ h).symm
        have hwf1 : SegsWF 0 (movMask vel).length (c :: t) := by
          rw [← hrs]
          exact removeShortOn_wf _ (rawSegments_wf _)
        have hwf2 := mergeOffAux_wf (pyInt (offth / delt)) 0
          (movMask vel).length t c hwf1.1 hwf1.2
        rw [hsegs]
        exact adjustSegs_wf durtol hdt _ _ hwf2
  · -- remove_on_before_off = false
    have hdt : 0 < durtol := hg5.1
    cases hrw : rawSegments (movMask vel) with
    | nil =>
        rw [hrw] at h
        exact Option.noConfusion h
    | cons p rest =>
        rw [hrw] at h
        rw [show (match p :: rest with
            | [] => (none : Option (List (ℕ × ℕ)))
            | p :: rest => some (removeShortOn (pyInt (onth / delt))
                (p :: filterShortOff (pyInt (offth / delt)) p rest))) =
          some (removeShortOn (pyInt (onth / delt))
            (p :: filterShortOff (pyInt (offth / delt)) p rest)) from rfl,
          Option.map_some'] at h
        have hsegs := (Option.some_injective _ h).symm
        have hsub : List.Sublist
            (p :: filterShortOff (pyInt (offth / delt)) p rest) (p :: rest) :=
          (filterShortOff_sublist _ rest p).cons₂ p
        have hwf1 : SegsWF 0 (movMask vel).length
            (p :: filterShortOff (pyInt (offth / delt)) p rest) := by
          refine SegsWF.sublist ?_ hsub
          rw [← hrw]
          exact rawSegments_wf _
        have hwf2 := removeShortOn_wf (pyInt (onth / delt)) hwf1
        rw [hsegs]
        exact adjustSegs_wf durtol hdt _ _ hwf2

/-- Witness for the amended C2 at the concrete input `vel11`. -/
theorem segments_wellformed_witness :
    (∀ q ∈ [((0 : ℤ), (7 : ℤ)), (5, 10)],
      0 ≤ q.1 ∧ q.1 ≤ q.2 ∧ q.2 ≤ (vel11.length : ℤ) - 1) ∧
    ([((0 : ℤ), (7 : ℤ)), (5, 10)]).Pairwise (fun q q' => q.1 ≤ q'.1) :=
  segments_wellformed vel11 1 (1/2) 0 0 (9/10) true [(0, 7), (5, 10)] vel11_eval

end Monalysa
